import Mathlib

/-!
Verification of the research-tldr PDF-to-summary pipeline.

This file shallowly embeds the pipeline of `app/summarizer.py` and
`app/summarize_runner.py` in Lean 4: Python strings become `List Char`,
byte strings become `List Nat`, the database table becomes a `List` of
records, and the two effectful boundaries (the HTTP fetch and the
language-model call) become explicit parameters.  Every definition is
translated from the source; the few definitions that instead transcribe
the specification's words (for comparison against the source) say so in
their doc comment.
-/

/-- Whitespace as matched by Python's regex `\s` on `str` patterns, which is
exactly the set accepted by `str.isspace` (and hence `str.strip`).  The
enumeration is the full Unicode whitespace set of CPython. -/
def isPySpace (c : Char) : Bool :=
  c = ' ' || c = '\t' || c = '\n' || c = '\x0b' || c = '\x0c' || c = '\r' ||
  c = '\x1c' || c = '\x1d' || c = '\x1e' || c = '\x1f' ||
  c = '\u0085' || c = '\u00A0' || c = '\u1680' ||
  (0x2000 ≤ c.toNat && c.toNat ≤ 0x200a) ||
  c = '\u2028' || c = '\u2029' || c = '\u202F' || c = '\u205F' || c = '\u3000'

/-- U+00AD SOFT HYPHEN, removed by `_normalize_text` after NFKC. -/
def softHyphen : Char := '\u00AD'

/-- U+0301 COMBINING ACUTE ACCENT (combining class 230). -/
def combiningAcute : Char := '\u0301'

/-- U+00E1 LATIN SMALL LETTER A WITH ACUTE, canonical composition of
`a` followed by U+0301. -/
def aWithAcute : Char := '\u00E1'

/-- Compatibility decomposition of one character.  This is the fragment of
the Unicode decomposition table covering the characters this development
evaluates concretely; every character outside the fragment has no
decomposition, which agrees with full Unicode on all characters appearing
in the concrete inputs below (ASCII, U+00AD, U+0301, U+00E1). -/
def decompK (c : Char) : List Char :=
  if c = aWithAcute then ['a', combiningAcute] else [c]

/-- Canonical combining class.  In the modelled fragment only U+0301 is a
non-starter (class 230); this agrees with full Unicode on every character
used in concrete inputs below. -/
def cccOf (c : Char) : Nat := if c = combiningAcute then 230 else 0

/-- Primary composite of a pair, per the Unicode canonical composition
table, restricted to the modelled fragment: `a` + U+0301 composes to
U+00E1.  No other pair of modelled characters has a primary composite in
full Unicode. -/
def composePair (a b : Char) : Option Char :=
  if a = 'a' ∧ b = combiningAcute then some aWithAcute else none

/-- Stable insertion of a non-starter into an already ccc-sorted run:
`c` goes after every mark of smaller-or-equal class (UAX #15 canonical
ordering is a stable sort of each maximal non-starter run by ccc). -/
def insertByCcc (c : Char) : List Char → List Char
  | [] => [c]
  | d :: rest => if cccOf d ≤ cccOf c then d :: insertByCcc c rest else c :: d :: rest

/-- Canonical ordering pass: each maximal run of non-starters is stably
sorted by combining class; `run` is the (already sorted) pending run. -/
def canonOrderGo (run : List Char) : List Char → List Char
  | [] => run
  | c :: rest =>
      if cccOf c = 0 then run ++ c :: canonOrderGo [] rest
      else canonOrderGo (insertByCcc c run) rest

/-- Canonical ordering of a decomposed character sequence. -/
def canonicalOrder (l : List Char) : List Char := canonOrderGo [] l

/-- Canonical composition pass (UAX #15): `seg` is the current segment,
a starter together with the marks that did not compose with it so far.
A mark composes with the segment's starter when it is not blocked (no
intervening mark of greater-or-equal class) and the pair has a primary
composite.  Starter-starter composition does not occur in the modelled
fragment (no such pair has a composite), so segments are flushed at the
next starter. -/
def composeGo (seg : Option (Char × List Char)) : List Char → List Char
  | [] =>
      match seg with
      | none => []
      | some (st, marks) => st :: marks
  | c :: rest =>
      match seg with
      | none =>
          if cccOf c = 0 then composeGo (some (c, [])) rest
          else c :: composeGo none rest
      | some (st, marks) =>
          if cccOf c = 0 then (st :: marks) ++ composeGo (some (c, [])) rest
          else
            match (match marks.getLast? with
                   | none => composePair st c
                   | some d => if cccOf d < cccOf c then composePair st c else none) with
            | some st2 => composeGo (some (st2, marks)) rest
            | none => composeGo (some (st, marks ++ [c])) rest

/-- NFKC normalization: compatibility decomposition, canonical ordering,
canonical composition.  Embeds `unicodedata.normalize("NFKC", ·)` on the
modelled character fragment. -/
def nfkc (l : List Char) : List Char :=
  composeGo none (canonicalOrder (l.flatMap decompK))

/-- One pass of `re.sub(r"-\s*\n\s*", "", t)` (de-hyphenation across line
breaks).  `re.sub` removes, left to right without rescanning, every
occurrence of a hyphen followed by a whitespace run that contains at
least one newline (the greedy `\s*\n\s*` consumes the entire maximal
whitespace run whenever that run contains a newline).  `run = some ws`
means a `-` was read and `ws` is the whitespace collected after it. -/
def deHyphGo (run : Option (List Char)) : List Char → List Char
  | [] =>
      match run with
      | none => []
      | some ws => if '\n' ∈ ws then [] else '-' :: ws
  | c :: rest =>
      match run with
      | none =>
          if c = '-' then deHyphGo (some []) rest
          else c :: deHyphGo none rest
      | some ws =>
          if isPySpace c then deHyphGo (some (ws ++ [c])) rest
          else
            (if '\n' ∈ ws then [] else '-' :: ws) ++
              (if c = '-' then deHyphGo (some []) rest
               else c :: deHyphGo none rest)

/-- Embeds `re.sub(r"-\s*\n\s*", "", t)`. -/
def deHyphenate (l : List Char) : List Char := deHyphGo none l

/-- One pass of `re.sub(r"\s*\n\s*", " ", t)`: every maximal whitespace
run containing at least one newline becomes a single space; whitespace
runs without a newline are left as they are.  `pending` is the current
whitespace run read so far. -/
def joinLinesGo (pending : List Char) : List Char → List Char
  | [] => if '\n' ∈ pending then [' '] else pending
  | c :: rest =>
      if isPySpace c then joinLinesGo (pending ++ [c]) rest
      else (if '\n' ∈ pending then [' '] else pending) ++ c :: joinLinesGo [] rest

/-- Embeds `re.sub(r"\s*\n\s*", " ", t)`. -/
def joinLines (l : List Char) : List Char := joinLinesGo [] l

/-- Embeds `re.sub(r"\s+", " ", t)`: every maximal whitespace run becomes
a single space.  Written character by character: a whitespace character
followed by more whitespace is dropped, the last of a run becomes `' '`. -/
def collapseSpaces : List Char → List Char
  | [] => []
  | [c] => if isPySpace c then [' '] else [c]
  | c :: d :: rest =>
      if isPySpace c then
        if isPySpace d then collapseSpaces (d :: rest)
        else ' ' :: collapseSpaces (d :: rest)
      else c :: collapseSpaces (d :: rest)

/-- Embeds Python `str.strip()`: removes leading and trailing whitespace. -/
def pyStrip (l : List Char) : List Char :=
  (((l.dropWhile isPySpace).reverse).dropWhile isPySpace).reverse

/-- Embeds `_normalize_text` of app/summarizer.py (identical to
`normalize_text` of .test_ai_summarizer.py): NFKC, soft-hyphen removal,
de-hyphenation across newlines, joining lines, whitespace collapsing,
strip. -/
def normalize_text (text : List Char) : List Char :=
  pyStrip (collapseSpaces (joinLines (deHyphenate
    ((nfkc text).filter (fun c => c ≠ softHyphen)))))

/-- Embeds `_chunk_text` of app/summarizer.py: if the text fits in one
chunk return it whole, otherwise `[s[i:i+max_chars] for i in
range(0, len(s), max_chars)]`.  Python `range(0, n, m)` (for `m > 0`)
has `(n + m - 1) / m` elements, and `s[i:i+m]` is `(s.drop i).take m`. -/
def chunk_text (s : List Char) (max_chars : Nat) : List (List Char) :=
  if s.length ≤ max_chars then [s]
  else (List.range' 0 ((s.length + max_chars - 1) / max_chars) max_chars).map
    (fun i => (s.drop i).take max_chars)

/-- The blank-line separator `"\n\n"` used by the extractor and by the
chunk re-join in `summarize_pdf_url_to_json`. -/
def blankLine : List Char := ['\n', '\n']

/-- Embeds step 3 of `summarize_pdf_url_to_json`:
`combined_text = "\n\n".join(_chunk_text(norm_text))`. -/
def combined_text (norm_text : List Char) (max_chars : Nat) : List Char :=
  List.intercalate blankLine (chunk_text norm_text max_chars)

/-- The outcome of `page.extract_text()` for one page: `none` when the
call raised or returned `None`; `some t` when it returned text `t`
(the code's `p.extract_text() or ""` turns all failures into `""`). -/
def pageText (p : Option (List Char)) : List Char := p.getD []

/-- Embeds `_extract_text_from_pdf` of app/summarizer.py, given the
per-page extraction outcomes of the parsed PDF:
`"\n\n".join(pages).replace("\r", "")`. -/
def extract_text_from_pdf (pages : List (Option (List Char))) : List Char :=
  (List.intercalate blankLine (pages.map pageText)).filter (fun c => c ≠ '\r')

/-- An HTTP response as visible to `_download_pdf` after redirects:
status code, declared content type, body bytes. -/
structure HttpResponse where
  status : Nat
  content_type : List Char
  body : List Nat
deriving DecidableEq

/-- Failure of a fetch: `httpx.Response.raise_for_status` raises
`httpx.HTTPStatusError` carrying the response status. -/
inductive FetchFailure where
  | httpStatusError (status : Nat)
deriving DecidableEq

/-- Embeds `_download_pdf` of app/summarizer.py.  The function issues a
GET (redirects followed, 60 s timeout, descriptive User-Agent), calls
`raise_for_status()` — which raises exactly when the final status is not
a 2xx success — and returns `r.content`.  The URL and the response's
declared content type are never inspected. -/
def download_pdf (pdf_url : List Char) (resp : HttpResponse) :
    Except FetchFailure (List Nat) :=
  if 200 ≤ resp.status ∧ resp.status < 300 then Except.ok resp.body
  else Except.error (FetchFailure.httpStatusError resp.status)

/-- Modelled from the spec: "the response's declared content type is a
PDF".  The source contains no such check; this definition exists only to
compare the spec's fetcher against the code's. -/
def contentTypeIsPdf (ct : List Char) : Bool := ct = "application/pdf".toList

/-- Modelled from the spec: "the URL itself ends in `.pdf`".  The source
contains no such check. -/
def urlEndsInPdf (url : List Char) : Bool := ".pdf".toList.isSuffixOf url

/-- Modelled from the spec: the fetcher the specification describes —
non-success statuses fail with the status, and a success whose declared
content type is not a PDF and whose URL does not end in `.pdf` fails
with "unexpected content type". -/
def download_pdf_spec (pdf_url : List Char) (resp : HttpResponse) :
    Except (List Char) (List Nat) :=
  if 200 ≤ resp.status ∧ resp.status < 300 then
    if contentTypeIsPdf resp.content_type || urlEndsInPdf pdf_url then
      Except.ok resp.body
    else Except.error "unexpected content type".toList
  else Except.error "http status error".toList

/-- Embeds Python `str.find(c)`: index of the first occurrence, `-1` if
absent. -/
def str_find (l : List Char) (c : Char) : Int :=
  match l.findIdx? (· = c) with
  | some i => (i : Int)
  | none => -1

/-- Embeds Python `str.rfind(c)`: index of the last occurrence, `-1` if
absent. -/
def str_rfind (l : List Char) (c : Char) : Int :=
  match l.reverse.findIdx? (· = c) with
  | some i => (l.length : Int) - 1 - i
  | none => -1

/-- Embeds the Python slice `l[a:b]` for the non-negative indices used
below. -/
def pySlice (l : List Char) (a b : Int) : List Char :=
  (l.take b.toNat).drop a.toNat

/-- Embeds step 5 of `summarize_pdf_url_to_json` of app/summarizer.py:
`first = output_text.find("{")`, `last = output_text.rfind("}")`,
`json_text = output_text[first:last+1] if first != -1 and last != -1
else "{}"`.  The extracted text is returned as `summary_text` without
being parsed or validated; there is no failure path. -/
def extract_json_text (output_text : List Char) : List Char :=
  let first := str_find output_text '{'
  let last := str_rfind output_text '}'
  if first ≠ -1 ∧ last ≠ -1 then pySlice output_text first (last + 1)
  else "{}".toList

/-- The `summary_text` computed from a raw model response:
`output_text = resp.output_text.strip()` followed by the brace
extraction above. -/
def model_summary_text (raw : List Char) : List Char :=
  extract_json_text (pyStrip raw)

/-- Modelled from the spec: the summarization client the specification
describes takes the first-`{`-to-last-`}` substring and fails
(`ModelOutputError`, here `none`) when no such substring parses as valid
JSON; `is_valid_json` stands for the JSON parser, which the source never
invokes on this string. -/
def extract_json_spec (is_valid_json : List Char → Bool)
    (output_text : List Char) : Option (List Char) :=
  let first := str_find output_text '{'
  let last := str_rfind output_text '}'
  if first ≠ -1 ∧ last ≠ -1 then
    let js := pySlice output_text first (last + 1)
    if is_valid_json js then some js else none
  else none

/-- Modelled from the spec: the paper record the orchestrator operates
on.  `app/models.py` declares `ArxivPaper` without the four summary
columns that `summarize_missing_papers` reads and writes
(`llm_summary`, `summary_model`, `summary_updated_at`,
`summary_pdf_sha256`) — those columns exist only in the runner's code
and in the spec's data model ("a stored PDF hash (nullable), a stored
summary (nullable)"), so they are modelled here from the spec, next to
the declared columns of `models.py`.  `published` is the ordering key
used by `order_by(ArxivPaper.published.desc())`. -/
structure PaperRec where
  id : Option Nat
  arxiv_id : List Char
  title : List Char
  summary : List Char
  published : Int
  authors : List Char
  url : List Char
  pdf_url : Option (List Char)
  llm_summary : Option (List Char)
  summary_model : Option (List Char)
  summary_updated_at : Option Int
  summary_pdf_sha256 : Option (List Char)
  extracted_text_sha256 : Option (List Char)
deriving DecidableEq, Inhabited

/-- Embeds the `SummarizationResult` pydantic model of
app/summarizer.py. -/
structure SummarizationResult where
  summary_text : List Char
  summary_model : List Char
  summary_updated_at : Int
  summary_pdf_sha256 : List Char
  extracted_text_sha256 : Option (List Char)
deriving DecidableEq, Inhabited

/-- The row of a database list at an index (rows are addressed by their
position, which models object identity of the fetched ORM rows). -/
def rowAt (db : List PaperRec) (i : Nat) : PaperRec := db.getD i default

/-- Embeds the WHERE clause of `summarize_missing_papers`:
`llm_summary IS NULL OR summary_pdf_sha256 IS NULL`. -/
def needs_summary (p : PaperRec) : Bool :=
  p.llm_summary.isNone || p.summary_pdf_sha256.isNone

/-- Embeds Python truthiness of `p.summary_pdf_sha256` as tested by
`if p.summary_pdf_sha256:` — true exactly for a non-null, non-empty
string. -/
def truthy_hash (p : PaperRec) : Bool :=
  match p.summary_pdf_sha256 with
  | some s => !s.isEmpty
  | none => false

/-- Stable insertion for the most-recently-published-first ordering of
row indices: `i` is placed before the first index holding a strictly
older paper. -/
def insertDesc (db : List PaperRec) (i : Nat) : List Nat → List Nat
  | [] => [i]
  | j :: rest =>
      if (rowAt db j).published < (rowAt db i).published then i :: j :: rest
      else j :: insertDesc db i rest

/-- Sort row indices so that more recently published papers come first,
embedding `ORDER BY published DESC`. -/
def sortByPublishedDesc (db : List PaperRec) (l : List Nat) : List Nat :=
  l.foldr (insertDesc db) []

/-- Embeds the SELECT of `summarize_missing_papers`: the rows whose
summary or stored PDF hash is null, most recently published first,
at most `limit` of them. -/
def selected_rows (db : List PaperRec) (limit : Nat) : List Nat :=
  (sortByPublishedDesc db
    ((List.range db.length).filter (fun i => needs_summary (rowAt db i)))).take limit

/-- The ordering `ORDER BY published DESC` establishes on row indices:
`i` before `j` means `i`'s paper was published no earlier. -/
def moreRecentFirst (db : List PaperRec) (i j : Nat) : Prop :=
  (rowAt db j).published ≤ (rowAt db i).published

/-- Embeds the per-paper UPDATE of `summarize_missing_papers`: the four
summary fields are overwritten from the `SummarizationResult`, and
`extracted_text_sha256` as well (the record exposes the attribute, so
the`hasattr` guard passes). -/
def apply_result (p : PaperRec) (r : SummarizationResult) : PaperRec :=
  { p with
    llm_summary := some r.summary_text
    summary_model := some r.summary_model
    summary_updated_at := some r.summary_updated_at
    summary_pdf_sha256 := some r.summary_pdf_sha256
    extracted_text_sha256 := r.extracted_text_sha256 }

/-- The identifier printed by the failure log line
`print(f"... {p.id or p.title} failed: ...")`: the id when it is truthy
(non-null and non-zero), the title otherwise. -/
def log_ident (p : PaperRec) : Sum Nat (List Char) :=
  match p.id with
  | some i => if i = 0 then Sum.inr p.title else Sum.inl i
  | none => Sum.inr p.title

/-- The state threaded through a batch run of
`summarize_missing_papers`: the table, the `updated` counter, the row
indices for which `summarize_pdf_url_to_json` was invoked (each
invocation performs the fetch, extraction, normalization and model
call for that paper), and the logged failures. -/
structure RunState where
  db : List PaperRec
  updated : Nat
  pipeline_calls : List Nat
  failure_log : List (Sum Nat (List Char) × List Char)
deriving DecidableEq

/-- One iteration of the loop of `summarize_missing_papers` on the row
at index `i`: skip when the stored hash is truthy; otherwise invoke the
pipeline (`oracle`), and either commit the updated row and bump the
counter, or log the failure and roll back, leaving the row unchanged. -/
def step_paper (oracle : PaperRec → Except (List Char) SummarizationResult)
    (st : RunState) (i : Nat) : RunState :=
  let p := rowAt st.db i
  if truthy_hash p then st
  else
    match oracle p with
    | Except.ok r =>
        { db := st.db.set i (apply_result p r)
          updated := st.updated + 1
          pipeline_calls := st.pipeline_calls ++ [i]
          failure_log := st.failure_log }
    | Except.error e =>
        { st with
          pipeline_calls := st.pipeline_calls ++ [i]
          failure_log := st.failure_log ++ [(log_ident p, e)] }

/-- Embeds `summarize_missing_papers` of app/summarize_runner.py.
`oracle` is `summarize_pdf_url_to_json` applied to the paper's
`pdf_url` and metadata: `Except.ok` is a successful
`SummarizationResult`, `Except.error` any exception raised by the
fetch, extraction or model call. -/
def summarize_missing_papers (db : List PaperRec) (limit : Nat)
    (oracle : PaperRec → Except (List Char) SummarizationResult) : RunState :=
  (selected_rows db limit).foldl (step_paper oracle)
    { db := db, updated := 0, pipeline_calls := [], failure_log := [] }

/-- A blank paper used to build concrete batches. -/
def basePaper : PaperRec :=
  { id := some 1
    arxiv_id := "2401.00001".toList
    title := "paper one".toList
    summary := "abstract".toList
    published := 100
    authors := "Ada, Grace".toList
    url := "https://arxiv.org/abs/2401.00001".toList
    pdf_url := some "https://arxiv.org/pdf/2401.00001".toList
    llm_summary := none
    summary_model := none
    summary_updated_at := none
    summary_pdf_sha256 := none
    extracted_text_sha256 := none }

/-- A concrete successful pipeline outcome used by witnesses. -/
def okResult : SummarizationResult :=
  { summary_text := "{tldr ok}".toList
    summary_model := "gpt-4o-mini".toList
    summary_updated_at := 1700
    summary_pdf_sha256 := "deadbeef".toList
    extracted_text_sha256 := some "feedface".toList }

/-- The row the run leaves at index `i`, as a function of the original
table: untouched when the stored hash is truthy, overwritten by the
pipeline result on success, rolled back (unchanged) on failure. -/
def paper_outcome (oracle : PaperRec → Except (List Char) SummarizationResult)
    (db : List PaperRec) (i : Nat) : PaperRec :=
  if truthy_hash (rowAt db i) then rowAt db i
  else
    match oracle (rowAt db i) with
    | Except.ok r => apply_result (rowAt db i) r
    | Except.error _ => rowAt db i

/-- The error carried by a failed pipeline call (`[]` on success; only
applied to failures below). -/
def errOf (r : Except (List Char) SummarizationResult) : List Char :=
  match r with
  | Except.error e => e
  | Except.ok _ => []

/-- No two adjacent characters are both whitespace. -/
def NoTwoSpaces (l : List Char) : Prop :=
  l.Chain' (fun a b => ¬(isPySpace a = true ∧ isPySpace b = true))

/-- A paper whose stored PDF hash is the empty string: non-null, but
falsy under Python truthiness. -/
def emptyHashPaper : PaperRec :=
  { basePaper with
    id := some 7
    arxiv_id := "2402.00007".toList
    title := "paper seven".toList
    published := 70
    llm_summary := none
    summary_pdf_sha256 := some [] }

/-- A second paper with the empty-string hash, for the selection claim. -/
def emptyHashPaper' : PaperRec :=
  { basePaper with
    id := some 9
    arxiv_id := "2403.00009".toList
    title := "paper nine".toList
    published := 90
    llm_summary := none
    summary_pdf_sha256 := some [] }

/-- A paper already carrying a real stored hash (and no summary), which
the orchestrator must skip. -/
def hashedPaper : PaperRec :=
  { basePaper with
    id := some 2
    arxiv_id := "2401.00002".toList
    title := "paper two".toList
    published := 200
    llm_summary := none
    summary_pdf_sha256 := some "abc123".toList }

/-- A never-summarized paper older than `hashedPaper`. -/
def olderPaper : PaperRec :=
  { basePaper with
    id := some 3
    arxiv_id := "2401.00003".toList
    title := "paper three".toList
    published := 50 }

/-- A pipeline oracle that always succeeds. -/
def okOracle : PaperRec → Except (List Char) SummarizationResult :=
  fun _ => Except.ok okResult

/-- A pipeline oracle whose fetch fails for paper id 1 and succeeds for
every other paper. -/
def failFirstOracle : PaperRec → Except (List Char) SummarizationResult :=
  fun p => if p.id = some 1 then Except.error "fetch timed out".toList
           else Except.ok okResult

/-! ## Chunker lemmas -/

theorem ceil_div_pos_succ (n m : Nat) (hn : 1 ≤ n) (hm : 0 < m) :
    (n + m - 1) / m = (n - 1) / m + 1 := by
  have h2 : n + m - 1 = (n - 1) + m := by omega
  rw [h2, Nat.add_div_right _ hm]

theorem range'_shift (m d : Nat) :
    ∀ (k s : Nat), List.range' (s + d) k m = (List.range' s k m).map (· + d) := by
  intro k
  induction k with
  | zero => intro s; simp
  | succ k ih =>
      intro s
      rw [List.range'_succ, List.range'_succ, List.map_cons, ← ih (s + m)]
      have hc : s + d + m = s + m + d := by omega
      rw [hc]

theorem chunk_pieces_flatten (m : Nat) (hm : 0 < m) :
    ∀ (n : Nat) (s : List Char), s.length = n →
      ((List.range' 0 ((s.length + m - 1) / m) m).map
        (fun i => (s.drop i).take m)).flatten = s := by
  intro n
  induction n using Nat.strong_induction_on with
  | _ n ih =>
      intro s hs
      rcases n with _ | n'
      · have hnil : s = [] := List.length_eq_zero.mp hs
        subst hnil
        simp [Nat.div_eq_of_lt (by omega : 0 + m - 1 < m)]
      · have hn1 : 1 ≤ s.length := by omega
        rw [ceil_div_pos_succ _ _ hn1 hm, List.range'_succ, List.map_cons,
          List.flatten_cons]
        have hshift : List.range' (0 + m) ((s.length - 1) / m) m =
            (List.range' 0 ((s.length - 1) / m) m).map (· + m) :=
          range'_shift m m _ 0
        rw [show (0 + m) = 0 + m from rfl] at hshift
        rw [hshift, List.map_map]
        have hdrop : ∀ i : Nat, (s.drop (i + m)).take m = ((s.drop m).drop i).take m := by
          intro i
          rw [List.drop_drop, Nat.add_comm]
        have hfun : ((fun i => (s.drop i).take m) ∘ (· + m)) =
            (fun i => ((s.drop m).drop i).take m) := by
          funext i
          simp only [Function.comp_apply]
          exact hdrop i
        rw [hfun]
        have hlen : (s.drop m).length = s.length - m := by simp
        have hcnt : ((s.drop m).length + m - 1) / m = (s.length - 1) / m := by
          rw [hlen]
          rcases Nat.lt_or_ge s.length m with h | h
          · have h1 : s.length - m = 0 := by omega
            rw [h1]
            rw [Nat.div_eq_of_lt (by omega), Nat.div_eq_of_lt (by omega)]
          · congr 1
            omega
        have ihm := ih (s.length - m) (by omega) (s.drop m) hlen
        rw [hcnt] at ihm
        rw [List.drop_zero, ihm, List.take_append_drop]

theorem chunk_text_flatten (s : List Char) (m : Nat) (hm : 0 < m) :
    (chunk_text s m).flatten = s := by
  unfold chunk_text
  split
  · simp
  · exact chunk_pieces_flatten m hm s.length s rfl

theorem chunk_text_mem_length_le (s : List Char) (m : Nat) :
    ∀ c ∈ chunk_text s m, c.length ≤ m := by
  intro c hc
  unfold chunk_text at hc
  split at hc
  · rename_i h
    rcases List.mem_singleton.mp hc with rfl
    exact h
  · rcases List.mem_map.mp hc with ⟨i, _, rfl⟩
    simp [List.length_take]

theorem chunk_text_single (s : List Char) (m : Nat) (h : s.length ≤ m) :
    chunk_text s m = [s] := by
  unfold chunk_text
  simp [h]

theorem chunk_text_count_ge_two (s : List Char) (m : Nat) (hm : 0 < m)
    (h : m < s.length) : 2 ≤ (chunk_text s m).length := by
  unfold chunk_text
  rw [if_neg (by omega)]
  rw [List.length_map, List.length_range']
  rw [Nat.le_div_iff_mul_le hm]
  omega

theorem intercalate_cons_cons (sep a b : List Char) (t : List (List Char)) :
    List.intercalate sep (a :: b :: t) = a ++ sep ++ List.intercalate sep (b :: t) := by
  simp [List.intercalate, List.intersperse]

theorem length_intercalate (sep : List Char) :
    ∀ xss : List (List Char),
      (List.intercalate sep xss).length =
        (xss.map List.length).sum + sep.length * (xss.length - 1)
  | [] => by simp [List.intercalate]
  | [a] => by simp [List.intercalate]
  | a :: b :: t => by
      rw [intercalate_cons_cons, List.length_append, List.length_append,
        length_intercalate sep (b :: t)]
      simp only [List.map_cons, List.sum_cons, List.length_cons]
      have h2 : t.length + 1 + 1 - 1 = t.length + 1 := by omega
      have h3 : t.length + 1 - 1 = t.length := by omega
      rw [h2, h3, Nat.mul_succ]
      omega

theorem mem_intercalate (sep : List Char) :
    ∀ (xss : List (List Char)) (c : Char), c ∈ List.intercalate sep xss →
      c ∈ sep ∨ ∃ x ∈ xss, c ∈ x
  | [], c, h => by simp [List.intercalate] at h
  | [a], c, h => by
      simp only [List.intercalate, List.intersperse, List.flatten] at h
      right
      exact ⟨a, by simp, by simpa using h⟩
  | a :: b :: t, c, h => by
      rw [intercalate_cons_cons] at h
      rcases List.mem_append.mp h with h1 | h2
      · rcases List.mem_append.mp h1 with ha | hs
        · exact Or.inr ⟨a, by simp, ha⟩
        · exact Or.inl hs
      · rcases mem_intercalate sep (b :: t) c h2 with hs | ⟨x, hx, hcx⟩
        · exact Or.inl hs
        · exact Or.inr ⟨x, List.mem_cons_of_mem a hx, hcx⟩

/-- C4: for every input string and positive maximum chunk size, the
chunker returns chunks of length at most the maximum whose in-order
concatenation reproduces the input exactly, and an input that fits
returns the single whole-input chunk. -/
theorem chunker_round_trip (s : List Char) (m : Nat) (hm : 0 < m) :
    (chunk_text s m).flatten = s ∧
    (∀ c ∈ chunk_text s m, c.length ≤ m) ∧
    (s.length ≤ m → chunk_text s m = [s]) :=
  ⟨chunk_text_flatten s m hm, chunk_text_mem_length_le s m, chunk_text_single s m⟩

/-- C4 witness: the 10-character string chunked at size 4. -/
theorem chunker_round_trip_witness :
    0 < 4 ∧
    ((chunk_text "abcdefghij".toList 4).flatten = "abcdefghij".toList ∧
      (∀ c ∈ chunk_text "abcdefghij".toList 4, c.length ≤ 4) ∧
      ("abcdefghij".toList.length ≤ 4 →
        chunk_text "abcdefghij".toList 4 = ["abcdefghij".toList])) ∧
    chunk_text "abcdefghij".toList 4 = ["abcd".toList, "efgh".toList, "ij".toList] :=
  ⟨by decide, chunker_round_trip "abcdefghij".toList 4 (by decide), by decide⟩

theorem intercalate_singleton (sep a : List Char) : List.intercalate sep [a] = a := by
  simp [List.intercalate]

/-- C10: the prompt text equals the normalized text exactly when it fits
in one chunk; otherwise the chunks are re-joined with the blank-line
separator, so the prompt text is strictly longer than (hence different
from) the normalized text: two characters inserted at every chunk
boundary. -/
theorem combined_text_vs_normalized (s : List Char) (m : Nat) :
    (s.length ≤ m → combined_text s m = s) ∧
    (0 < m → m < s.length →
      combined_text s m = List.intercalate blankLine (chunk_text s m) ∧
      (chunk_text s m).flatten = s ∧
      (combined_text s m).length = s.length + 2 * ((chunk_text s m).length - 1) ∧
      2 ≤ (chunk_text s m).length ∧
      combined_text s m ≠ s) := by
  constructor
  · intro h
    rw [combined_text, chunk_text_single s m h, intercalate_singleton]
  · intro hm h
    have hflat : (chunk_text s m).flatten = s := chunk_text_flatten s m hm
    have hsum : ((chunk_text s m).map List.length).sum = s.length := by
      rw [← List.length_flatten, hflat]
    have hcnt : 2 ≤ (chunk_text s m).length := chunk_text_count_ge_two s m hm h
    have hlen : (combined_text s m).length =
        s.length + 2 * ((chunk_text s m).length - 1) := by
      rw [combined_text, length_intercalate, hsum]
      have : blankLine.length = 2 := by decide
      rw [this]
    refine ⟨rfl, hflat, hlen, hcnt, ?_⟩
    intro heq
    have := congrArg List.length heq
    rw [hlen] at this
    omega

/-- C10 witness: a 10-character normalized text with chunk size 4 is
re-joined with two blank-line separators; a short text passes through
unchanged. -/
theorem combined_text_vs_normalized_witness :
    ("abc".toList.length ≤ 4 ∧ combined_text "abc".toList 4 = "abc".toList) ∧
    (0 < 4 ∧ 4 < "abcdefghij".toList.length ∧
      combined_text "abcdefghij".toList 4 ≠ "abcdefghij".toList) ∧
    combined_text "abcdefghij".toList 4 = "abcd\n\nefgh\n\nij".toList :=
  ⟨⟨by decide, (combined_text_vs_normalized "abc".toList 4).1 (by decide)⟩,
   ⟨by decide, by decide,
    ((combined_text_vs_normalized "abcdefghij".toList 4).2 (by decide) (by decide)).2.2.2.2⟩,
   by decide⟩

/-! ## Text extractor (C8) -/

/-- C8: extraction joins the per-page texts with the blank-line
separator, a failed page contributes exactly the empty string, and no
carriage return survives in the result. -/
theorem extractor_contract (pages : List (Option (List Char))) :
    extract_text_from_pdf pages =
      (List.intercalate blankLine (pages.map pageText)).filter (fun c => c ≠ '\r') ∧
    '\r' ∉ extract_text_from_pdf pages ∧
    extract_text_from_pdf pages =
      extract_text_from_pdf (pages.map (fun p => some (pageText p))) ∧
    (∀ texts : List (List Char), pages = texts.map some →
      (∀ x ∈ texts, '\r' ∉ x) →
      extract_text_from_pdf pages = List.intercalate blankLine texts) := by
  refine ⟨rfl, ?_, ?_, ?_⟩
  · intro hmem
    unfold extract_text_from_pdf at hmem
    rw [List.mem_filter] at hmem
    exact absurd hmem.2 (by decide)
  · unfold extract_text_from_pdf
    rw [List.map_map]
    have hmap : (pageText ∘ fun p => some (pageText p)) = pageText := by
      funext p
      simp [pageText]
    rw [hmap]
  · intro texts htexts hcr
    subst htexts
    unfold extract_text_from_pdf
    have hmap : (texts.map some).map pageText = texts := by
      rw [List.map_map]
      have hid : (pageText ∘ some : List Char → List Char) = id := by
        funext x
        simp [pageText]
      rw [hid, List.map_id]
    rw [hmap]
    apply List.filter_eq_self.mpr
    intro c hc
    rcases mem_intercalate blankLine texts c hc with hsep | ⟨x, hx, hcx⟩
    · have hcn : c = '\n' := by simpa [blankLine] using hsep
      subst hcn
      decide
    · have := hcr x hx
      simp only [decide_eq_true_eq]
      intro hceq
      exact this (hceq ▸ hcx)

/-- C8 witness: a failing middle page contributes an empty string and a
carriage return is stripped; an all-success extraction is the plain
blank-line join. -/
theorem extractor_contract_witness :
    extract_text_from_pdf [some "alpha".toList, none, some "b\rc".toList] =
      "alpha\n\n\n\nbc".toList ∧
    extract_text_from_pdf [some "alpha".toList, some "beta".toList] =
      List.intercalate blankLine ["alpha".toList, "beta".toList] :=
  ⟨by decide,
   (extractor_contract [some "alpha".toList, some "beta".toList]).2.2.2
     ["alpha".toList, "beta".toList] (by decide) (by decide)⟩

/-! ## PDF fetcher (C3) -/

/-- C3 counterexample: a 200 response whose declared content type is
`text/html`, for a URL that does not end in `.pdf`.  The spec's fetcher
fails with "unexpected content type"; the code's fetcher performs no
content-type validation and returns the body. -/
theorem fetcher_no_content_type_validation :
    contentTypeIsPdf "text/html".toList = false ∧
    urlEndsInPdf "https://example.com/page".toList = false ∧
    download_pdf "https://example.com/page".toList
      { status := 200, content_type := "text/html".toList, body := [37, 80, 68, 70] } =
      Except.ok [37, 80, 68, 70] ∧
    download_pdf_spec "https://example.com/page".toList
      { status := 200, content_type := "text/html".toList, body := [37, 80, 68, 70] } =
      Except.error "unexpected content type".toList :=
  ⟨by decide, by decide, rfl, rfl⟩

/-- C3 amended: the fetcher performs no content-type validation — for a
2xx response it returns the body whatever the content type or URL (the
result does not depend on the declared content type at all) — and any
non-2xx status fails with an HTTP status error carrying the status. -/
theorem fetcher_status_contract (url : List Char) (resp : HttpResponse) :
    (200 ≤ resp.status ∧ resp.status < 300 →
      download_pdf url resp = Except.ok resp.body) ∧
    (¬(200 ≤ resp.status ∧ resp.status < 300) →
      download_pdf url resp =
        Except.error (FetchFailure.httpStatusError resp.status)) ∧
    (∀ ct : List Char,
      download_pdf url { resp with content_type := ct } = download_pdf url resp) := by
  refine ⟨?_, ?_, ?_⟩
  · intro h
    unfold download_pdf
    rw [if_pos h]
  · intro h
    unfold download_pdf
    rw [if_neg h]
  · intro ct
    unfold download_pdf
    rfl

/-- C3 witness: a 200 response succeeds with its body, a 404 fails with
the status. -/
theorem fetcher_status_contract_witness :
    (200 ≤ 200 ∧ 200 < 300 ∧
      download_pdf "https://arxiv.org/pdf/1".toList
        { status := 200, content_type := "application/pdf".toList, body := [1, 2] } =
        Except.ok [1, 2]) ∧
    (¬(200 ≤ 404 ∧ 404 < 300) ∧
      download_pdf "https://arxiv.org/pdf/1".toList
        { status := 404, content_type := "application/pdf".toList, body := [] } =
        Except.error (FetchFailure.httpStatusError 404)) :=
  ⟨⟨by decide, by decide,
    (fetcher_status_contract "https://arxiv.org/pdf/1".toList
      { status := 200, content_type := "application/pdf".toList, body := [1, 2] }).1
      (by decide)⟩,
   ⟨by decide,
    (fetcher_status_contract "https://arxiv.org/pdf/1".toList
      { status := 404, content_type := "application/pdf".toList, body := [] }).2.1
      (by decide)⟩⟩

/-! ## Model-output JSON extraction (C2) -/

theorem findIdx_eq_none_of_not_mem (l : List Char) (c : Char) (h : c ∉ l) :
    l.findIdx? (· = c) = none := by
  rw [List.findIdx?_eq_none_iff]
  intro x hx
  rw [decide_eq_false_iff_not]
  intro hxc
  exact h (hxc ▸ hx)

theorem str_find_sandwich (pre body post : List Char) (hpre : '{' ∉ pre)
    (hhead : body.head? = some '{') :
    str_find (pre ++ body ++ post) '{' = (pre.length : Int) := by
  rcases body with _ | ⟨b, bt⟩
  · simp at hhead
  · have hb : b = '{' := by simpa using hhead
    subst hb
    unfold str_find
    rw [List.append_assoc, List.findIdx?_append,
      findIdx_eq_none_of_not_mem pre '{' hpre]
    simp only [List.cons_append, List.findIdx?_cons, decide_True, if_pos,
      Option.none_or, Option.map_some']
    simp

theorem str_rfind_sandwich (pre body post : List Char) (hpost : '}' ∉ post)
    (hlast : body.getLast? = some '}') :
    str_rfind (pre ++ body ++ post) '}' =
      (pre.length : Int) + (body.length : Int) - 1 := by
  unfold str_rfind
  rw [List.append_assoc, List.reverse_append, List.reverse_append]
  have hrev : body.reverse.head? = some '}' := by
    rw [List.head?_reverse]
    exact hlast
  rcases hb : body.reverse with _ | ⟨b, bt⟩
  · rw [hb] at hrev
    simp at hrev
  · rw [hb] at hrev
    have hbj : b = '}' := by simpa using hrev
    subst hbj
    rw [List.append_assoc, List.findIdx?_append,
      findIdx_eq_none_of_not_mem post.reverse '}' (by simpa using hpost)]
    rw [List.cons_append]
    have hfi : List.findIdx? (fun x => decide (x = '}')) ('}' :: (bt ++ pre.reverse)) =
        some 0 := by
      simp [List.findIdx?_cons]
    rw [hfi, Option.map_some', Option.none_or]
    simp only [List.length_append, List.length_reverse]
    push_cast
    ring

theorem pySlice_sandwich (pre body post : List Char) :
    pySlice (pre ++ body ++ post) (pre.length : Int)
      ((pre.length : Int) + (body.length : Int) - 1 + 1) = body := by
  unfold pySlice
  have h1 : ((pre.length : Int) + (body.length : Int) - 1 + 1) =
      ((pre.length + body.length : Nat) : Int) := by push_cast; ring
  rw [h1, Int.toNat_natCast, Int.toNat_natCast]
  have h2 : pre.length + body.length = (pre ++ body).length := by simp
  rw [h2, List.take_left]
  exact List.drop_left pre body

/-- C2 counterexample: on a response containing no brace at all there is
no first-`{`-to-last-`}` substring, so no substring parses as valid JSON
— even granting the most permissive parser (`fun _ => true`), the
client the spec describes must fail with `ModelOutputError` — yet the
code substitutes the literal string `"{}"` as the summary text and
succeeds; no `ModelOutputError` exists in the source. -/
theorem model_output_error_never_raised :
    extract_json_spec (fun _ => true) "model refused to answer".toList = none ∧
    model_summary_text "model refused to answer".toList = "{}".toList :=
  ⟨by decide, by decide⟩

/-- C2 amended: when the response contains a first `{` and a last `}`,
the client takes exactly that substring (shown for any response
decomposed around a brace-delimited core); when either brace is absent
it substitutes the literal string `"{}"`; the result is returned as the
summary text without being parsed or validated, so no failure occurs. -/
theorem json_extraction_behavior :
    (∀ pre body post : List Char, '{' ∉ pre → '}' ∉ post →
      body.head? = some '{' → body.getLast? = some '}' →
      extract_json_text (pre ++ body ++ post) = body) ∧
    (∀ output : List Char, '{' ∉ output ∨ '}' ∉ output →
      extract_json_text output = "{}".toList) := by
  constructor
  · intro pre body post hpre hpost hhead hlast
    have hq : body ≠ [] := by
      intro h
      rw [h] at hhead
      simp at hhead
    have hb1 : 0 < body.length := List.length_pos.mpr hq
    unfold extract_json_text
    rw [str_find_sandwich pre body post hpre hhead,
      str_rfind_sandwich pre body post hpost hlast]
    have hcond : ((pre.length : Int) ≠ -1 ∧
        (pre.length : Int) + (body.length : Int) - 1 ≠ -1) := by
      have h1 := Int.natCast_nonneg pre.length
      have h2 : (1 : Int) ≤ (body.length : Int) := by exact_mod_cast hb1
      omega
    rw [if_pos hcond]
    exact pySlice_sandwich pre body post
  · intro output h
    unfold extract_json_text
    rcases h with h | h
    · have hf : str_find output '{' = -1 := by
        unfold str_find
        rw [findIdx_eq_none_of_not_mem output '{' h]
      exact if_neg (fun hc => hc.1 hf)
    · have hf : str_rfind output '}' = -1 := by
        unfold str_rfind
        rw [findIdx_eq_none_of_not_mem output.reverse '}' (by simpa using h)]
      exact if_neg (fun hc => hc.2 hf)

/-- C2 witness: the spec's wrapped-response scenario, and a braceless
response. -/
theorem json_extraction_behavior_witness :
    ('{' ∉ "Sure! ".toList ∧ '}' ∉ " Thanks.".toList ∧
      "{meta 1}".toList.head? = some '{' ∧
      "{meta 1}".toList.getLast? = some '}' ∧
      extract_json_text ("Sure! ".toList ++ "{meta 1}".toList ++ " Thanks.".toList) =
        "{meta 1}".toList) ∧
    ('{' ∉ "no braces here".toList ∧
      extract_json_text "no braces here".toList = "{}".toList) :=
  ⟨⟨by decide, by decide, by decide, by decide,
    json_extraction_behavior.1 "Sure! ".toList "{meta 1}".toList " Thanks.".toList
      (by decide) (by decide) (by decide) (by decide)⟩,
   ⟨by decide,
    json_extraction_behavior.2 "no braces here".toList (Or.inl (by decide))⟩⟩

/-! ## Normalizer lemmas (C6, C7) -/

theorem newline_not_mem_joinLinesGo :
    ∀ (l pending : List Char), '\n' ∉ joinLinesGo pending l := by
  intro l
  induction l with
  | nil =>
      intro pending
      unfold joinLinesGo
      split
      · simp
      · rename_i hmem
        exact hmem
  | cons c rest ih =>
      intro pending
      unfold joinLinesGo
      split
      · exact ih (pending ++ [c])
      · rename_i hsp
        intro hmem
        rcases List.mem_append.mp hmem with h1 | h2
        · revert h1
          split
          · simp
          · rename_i hnp
            exact hnp
        · rcases List.mem_cons.mp h2 with h3 | h4
          · rw [← h3] at hsp
            exact hsp (by decide)
          · exact ih [] h4

theorem joinLinesGo_eq_self :
    ∀ (l pending : List Char), '\n' ∉ pending → '\n' ∉ l →
      joinLinesGo pending l = pending ++ l := by
  intro l
  induction l with
  | nil =>
      intro pending hp _
      unfold joinLinesGo
      rw [if_neg hp, List.append_nil]
  | cons c rest ih =>
      intro pending hp hl
      have hcn : c ≠ '\n' := by
        intro h
        exact hl (h ▸ List.mem_cons_self c rest)
      have hrest : '\n' ∉ rest := fun h => hl (List.mem_cons_of_mem c h)
      unfold joinLinesGo
      split
      · rw [ih (pending ++ [c]) (by
          intro h
          rcases List.mem_append.mp h with h1 | h2
          · exact hp h1
          · exact hcn (List.mem_singleton.mp h2).symm) hrest]
        simp
      · rw [ih [] (by simp) hrest]
        simp

theorem not_mem_joinLinesGo (x : Char) (hx : x ≠ ' ') :
    ∀ (l pending : List Char), x ∉ l → x ∉ pending → x ∉ joinLinesGo pending l := by
  intro l
  induction l with
  | nil =>
      intro pending _ hp
      unfold joinLinesGo
      split
      · simpa using hx
      · exact hp
  | cons c rest ih =>
      intro pending hl hp
      have hxc : x ≠ c := by
        intro h
        exact hl (h ▸ List.mem_cons_self c rest)
      have hrest : x ∉ rest := fun h => hl (List.mem_cons_of_mem c h)
      unfold joinLinesGo
      split
      · exact ih (pending ++ [c]) hrest (by
          intro h
          rcases List.mem_append.mp h with h1 | h2
          · exact hp h1
          · exact hxc (List.mem_singleton.mp h2))
      · intro hmem
        rcases List.mem_append.mp hmem with h1 | h2
        · revert h1
          split
          · simpa using hx
          · exact hp
        · rcases List.mem_cons.mp h2 with h3 | h4
          · exact hxc h3
          · exact ih [] hrest (by simp) h4

theorem not_mem_deHyphGo (x : Char) (hx : x ≠ '-') :
    ∀ (l : List Char) (run : Option (List Char)), x ∉ l →
      (∀ ws, run = some ws → x ∉ ws) → x ∉ deHyphGo run l := by
  intro l
  induction l with
  | nil =>
      rintro (_ | ws) _ hr
      · intro h
        simp [deHyphGo] at h
      · intro h
        simp only [deHyphGo] at h
        by_cases hn : '\n' ∈ ws
        · rw [if_pos hn] at h
          simp at h
        · rw [if_neg hn] at h
          rcases List.mem_cons.mp h with h1 | h2
          · exact hx h1
          · exact hr ws rfl h2
  | cons c rest ih =>
      rintro (_ | ws) hl hr
      all_goals
        have hxc : x ≠ c := by
          intro h
          exact hl (h ▸ List.mem_cons_self c rest)
        have hrest : x ∉ rest := fun h => hl (List.mem_cons_of_mem c h)
      · by_cases hc : c = '-'
        · rw [show deHyphGo none (c :: rest) = deHyphGo (some []) rest from by
            simp [deHyphGo, hc]]
          exact ih (some []) hrest (by
            intro ws2 hws2
            injection hws2 with hws3
            rw [← hws3]
            simp)
        · rw [show deHyphGo none (c :: rest) = c :: deHyphGo none rest from by
            simp [deHyphGo, hc]]
          intro h
          rcases List.mem_cons.mp h with h1 | h2
          · exact hxc h1
          · exact ih none hrest (by intro ws2 hws2; cases hws2) h2
      · have hws : x ∉ ws := hr ws rfl
        by_cases hsp : isPySpace c
        · rw [show deHyphGo (some ws) (c :: rest) = deHyphGo (some (ws ++ [c])) rest from by
            simp [deHyphGo, hsp]]
          exact ih (some (ws ++ [c])) hrest (by
            intro ws2 hws2
            injection hws2 with hws3
            rw [← hws3]
            intro h
            rcases List.mem_append.mp h with h1 | h2
            · exact hws h1
            · exact hxc (List.mem_singleton.mp h2))
        · rw [show deHyphGo (some ws) (c :: rest) =
              (if '\n' ∈ ws then [] else '-' :: ws) ++
                (if c = '-' then deHyphGo (some []) rest
                 else c :: deHyphGo none rest) from by
            simp [deHyphGo, hsp]]
          intro h
          rcases List.mem_append.mp h with h1 | h2
          · by_cases hn : '\n' ∈ ws
            · rw [if_pos hn] at h1
              simp at h1
            · rw [if_neg hn] at h1
              rcases List.mem_cons.mp h1 with h3 | h4
              · exact hx h3
              · exact hws h4
          · by_cases hc : c = '-'
            · rw [if_pos hc] at h2
              exact ih (some []) hrest (by
                intro ws2 hws2
                injection hws2 with hws3
                rw [← hws3]
                simp) h2
            · rw [if_neg hc] at h2
              rcases List.mem_cons.mp h2 with h3 | h4
              · exact hxc h3
              · exact ih none hrest (by intro ws2 hws2; cases hws2) h4

theorem deHyphGo_no_newline :
    ∀ (l : List Char) (run : Option (List Char)), '\n' ∉ l →
      (∀ ws, run = some ws → '\n' ∉ ws) →
      deHyphGo run l =
        (match run with | none => [] | some ws => '-' :: ws) ++ l := by
  intro l
  induction l with
  | nil =>
      rintro (_ | ws) _ hr
      · rfl
      · simp only [deHyphGo]
        rw [if_neg (hr ws rfl)]
        simp
  | cons c rest ih =>
      rintro (_ | ws) hl hr
      all_goals
        have hcn : c ≠ '\n' := by
          intro h
          exact hl (h ▸ List.mem_cons_self c rest)
        have hrest : '\n' ∉ rest := fun h => hl (List.mem_cons_of_mem c h)
      · by_cases hc : c = '-'
        · rw [show deHyphGo none (c :: rest) = deHyphGo (some []) rest from by
            simp [deHyphGo, hc]]
          rw [ih (some []) hrest (by
            intro ws2 hws2
            injection hws2 with hws3
            rw [← hws3]
            simp)]
          rw [hc]
          rfl
        · rw [show deHyphGo none (c :: rest) = c :: deHyphGo none rest from by
            simp [deHyphGo, hc]]
          rw [ih none hrest (by intro ws2 hws2; cases hws2)]
          rfl
      · have hws : '\n' ∉ ws := hr ws rfl
        by_cases hsp : isPySpace c
        · rw [show deHyphGo (some ws) (c :: rest) = deHyphGo (some (ws ++ [c])) rest from by
            simp [deHyphGo, hsp]]
          rw [ih (some (ws ++ [c])) hrest (by
            intro ws2 hws2
            injection hws2 with hws3
            rw [← hws3]
            intro h
            rcases List.mem_append.mp h with h1 | h2
            · exact hws h1
            · exact hcn (List.mem_singleton.mp h2).symm)]
          simp
        · rw [show deHyphGo (some ws) (c :: rest) =
              (if '\n' ∈ ws then [] else '-' :: ws) ++
                (if c = '-' then deHyphGo (some []) rest
                 else c :: deHyphGo none rest) from by
            simp [deHyphGo, hsp]]
          rw [if_neg hws]
          by_cases hc : c = '-'
          · rw [if_pos hc]
            rw [ih (some []) hrest (by
              intro ws2 hws2
              injection hws2 with hws3
              rw [← hws3]
              simp)]
            rw [hc]
            simp
          · rw [if_neg hc]
            rw [ih none hrest (by intro ws2 hws2; cases hws2)]
            simp

theorem not_mem_collapseSpaces (x : Char) (hx : x ≠ ' ') :
    ∀ l : List Char, x ∉ l → x ∉ collapseSpaces l
  | [] => fun _ h => by simp [collapseSpaces] at h
  | [c] => fun hl h => by
      revert h
      unfold collapseSpaces
      split
      · intro h
        exact hx (List.mem_singleton.mp h)
      · intro h
        exact hl h
  | c :: d :: rest => fun hl h => by
      have hxc : x ≠ c := by
        intro he
        exact hl (he ▸ List.mem_cons_self c (d :: rest))
      have hrest : x ∉ d :: rest := fun hm => hl (List.mem_cons_of_mem c hm)
      revert h
      unfold collapseSpaces
      split
      · split
        · exact not_mem_collapseSpaces x hx (d :: rest) hrest
        · intro h
          rcases List.mem_cons.mp h with h1 | h2
          · exact hx h1
          · exact not_mem_collapseSpaces x hx (d :: rest) hrest h2
      · intro h
        rcases List.mem_cons.mp h with h1 | h2
        · exact hxc h1
        · exact not_mem_collapseSpaces x hx (d :: rest) hrest h2

theorem ws_mem_collapseSpaces :
    ∀ l : List Char, ∀ c0 ∈ collapseSpaces l, isPySpace c0 = true → c0 = ' '
  | [] => fun c0 h _ => by simp [collapseSpaces] at h
  | [c] => fun c0 h hws => by
      revert h
      unfold collapseSpaces
      split
      · intro h
        exact List.mem_singleton.mp h
      · intro h
        rename_i hns
        rw [List.mem_singleton.mp h] at hws
        exact absurd hws (by simpa using hns)
  | c :: d :: rest => fun c0 h hws => by
      revert h
      unfold collapseSpaces
      split
      · split
        · intro h
          exact ws_mem_collapseSpaces (d :: rest) c0 h hws
        · intro h
          rcases List.mem_cons.mp h with h1 | h2
          · exact h1
          · exact ws_mem_collapseSpaces (d :: rest) c0 h2 hws
      · intro h
        rcases List.mem_cons.mp h with h1 | h2
        · rename_i hns
          rw [h1] at hws
          exact absurd hws (by simpa using hns)
        · exact ws_mem_collapseSpaces (d :: rest) c0 h2 hws

theorem collapseSpaces_head_nonspace (d : Char) (t : List Char)
    (hd : isPySpace d = false) : (collapseSpaces (d :: t)).head? = some d := by
  cases t with
  | nil =>
      unfold collapseSpaces
      rw [if_neg (by simp [hd])]
      rfl
  | cons e t' =>
      unfold collapseSpaces
      rw [if_neg (by simp [hd])]
      rfl

theorem chain'_collapseSpaces : ∀ l : List Char, NoTwoSpaces (collapseSpaces l)
  | [] => by simp [collapseSpaces, NoTwoSpaces]
  | [c] => by
      unfold collapseSpaces NoTwoSpaces
      split <;> simp
  | c :: d :: rest => by
      unfold collapseSpaces
      split
      · split
        · exact chain'_collapseSpaces (d :: rest)
        · rename_i hsp hdn
          unfold NoTwoSpaces
          rw [List.chain'_cons']
          constructor
          · intro b hb
            rw [collapseSpaces_head_nonspace d rest (by simpa using hdn)] at hb
            rw [Option.mem_def, Option.some.injEq] at hb
            rw [← hb]
            intro hcon
            exact absurd hcon.2 (by simpa using hdn)
          · exact chain'_collapseSpaces (d :: rest)
      · rename_i hcn
        unfold NoTwoSpaces
        rw [List.chain'_cons']
        constructor
        · intro b _
          intro hcon
          exact absurd hcon.1 (by simpa using hcn)
        · exact chain'_collapseSpaces (d :: rest)

theorem collapseSpaces_eq_self :
    ∀ l : List Char, (∀ c0 ∈ l, isPySpace c0 = true → c0 = ' ') →
      NoTwoSpaces l → collapseSpaces l = l
  | [] => fun _ _ => rfl
  | [c] => fun hws _ => by
      unfold collapseSpaces
      split
      · rename_i hsp
        rw [hws c (List.mem_singleton_self c) hsp]
      · rfl
  | c :: d :: rest => fun hws hch => by
      have hch2 : NoTwoSpaces (d :: rest) := (List.chain'_cons'.mp hch).2
      have hws2 : ∀ c0 ∈ d :: rest, isPySpace c0 = true → c0 = ' ' :=
        fun c0 hm => hws c0 (List.mem_cons_of_mem c hm)
      unfold collapseSpaces
      split
      · rename_i hsp
        split
        · rename_i hdsp
          exact absurd ⟨hsp, hdsp⟩ ((List.chain'_cons'.mp hch).1 d rfl)
        · rw [collapseSpaces_eq_self (d :: rest) hws2 hch2,
            hws c (List.mem_cons_self c (d :: rest)) (by assumption)]
      · rw [collapseSpaces_eq_self (d :: rest) hws2 hch2]

theorem mem_pyStrip (l : List Char) (c0 : Char) (h : c0 ∈ pyStrip l) : c0 ∈ l := by
  unfold pyStrip at h
  rw [List.mem_reverse] at h
  have h2 := (List.dropWhile_suffix isPySpace).mem h
  rw [List.mem_reverse] at h2
  exact (List.dropWhile_suffix isPySpace).mem h2

theorem noTwo_symm {a b : Char} (h : ¬(isPySpace a = true ∧ isPySpace b = true)) :
    ¬(isPySpace b = true ∧ isPySpace a = true) := fun hc => h ⟨hc.2, hc.1⟩

theorem chain'_pyStrip (l : List Char) (h : NoTwoSpaces l) :
    NoTwoSpaces (pyStrip l) := by
  unfold pyStrip
  have h1 : NoTwoSpaces (l.dropWhile isPySpace) :=
    h.suffix (List.dropWhile_suffix isPySpace)
  have h2 : NoTwoSpaces (l.dropWhile isPySpace).reverse := by
    unfold NoTwoSpaces at h1 ⊢
    rw [List.chain'_reverse]
    exact List.Chain'.imp (fun a b hab => noTwo_symm hab) h1
  have h3 : NoTwoSpaces ((l.dropWhile isPySpace).reverse.dropWhile isPySpace) :=
    h2.suffix (List.dropWhile_suffix isPySpace)
  unfold NoTwoSpaces at h3 ⊢
  rw [List.chain'_reverse]
  exact List.Chain'.imp (fun a b hab => noTwo_symm hab) h3

theorem dropWhile_eq_self_of_head (p : Char → Bool) (l : List Char)
    (h : ∀ c0, l.head? = some c0 → p c0 = false) : l.dropWhile p = l := by
  cases l with
  | nil => rfl
  | cons a t =>
      rw [List.dropWhile_cons, if_neg]
      rw [h a rfl]
      simp

theorem pyStrip_head_not_space (l : List Char) (c0 : Char)
    (h : (pyStrip l).head? = some c0) : isPySpace c0 = false := by
  unfold pyStrip at h
  rw [List.head?_reverse] at h
  rcases hB : (l.dropWhile isPySpace).reverse.dropWhile isPySpace with _ | ⟨b, bt⟩
  · rw [hB] at h
    simp at h
  · have hBne : (l.dropWhile isPySpace).reverse.dropWhile isPySpace ≠ [] := by
      rw [hB]
      simp
    obtain ⟨t, ht⟩ := List.dropWhile_suffix (l := (l.dropWhile isPySpace).reverse)
      (p := isPySpace)
    have hgl : ((l.dropWhile isPySpace).reverse.dropWhile isPySpace).getLast? =
        (l.dropWhile isPySpace).reverse.getLast? := by
      conv_rhs => rw [← ht]
      rw [List.getLast?_append]
      rcases hgl2 : ((l.dropWhile isPySpace).reverse.dropWhile isPySpace).getLast? with
        _ | g
      · exact absurd (List.getLast?_eq_none_iff.mp hgl2) hBne
      · rfl
    rw [hgl, List.getLast?_reverse] at h
    have := List.head?_dropWhile_not isPySpace l
    rw [h] at this
    exact this

theorem pyStrip_getLast_not_space (l : List Char) (c0 : Char)
    (h : (pyStrip l).getLast? = some c0) : isPySpace c0 = false := by
  unfold pyStrip at h
  rw [List.getLast?_reverse] at h
  have := List.head?_dropWhile_not isPySpace (l.dropWhile isPySpace).reverse
  rw [h] at this
  exact this

theorem pyStrip_eq_self (l : List Char)
    (hh : ∀ c0, l.head? = some c0 → isPySpace c0 = false)
    (hl : ∀ c0, l.getLast? = some c0 → isPySpace c0 = false) : pyStrip l = l := by
  unfold pyStrip
  rw [dropWhile_eq_self_of_head isPySpace l hh]
  rw [dropWhile_eq_self_of_head isPySpace l.reverse (by
    intro c0 hc0
    rw [List.head?_reverse] at hc0
    exact hl c0 hc0)]
  exact List.reverse_reverse l

theorem normalize_text_eq (t : List Char) :
    normalize_text t = pyStrip (collapseSpaces (joinLines (deHyphenate
      ((nfkc t).filter (fun c => c ≠ softHyphen))))) := rfl

theorem pipeline_invariants (y : List Char) (hy : softHyphen ∉ y) :
    '\n' ∉ pyStrip (collapseSpaces (joinLines (deHyphenate y))) ∧
    softHyphen ∉ pyStrip (collapseSpaces (joinLines (deHyphenate y))) ∧
    (∀ c ∈ pyStrip (collapseSpaces (joinLines (deHyphenate y))),
      isPySpace c = true → c = ' ') ∧
    NoTwoSpaces (pyStrip (collapseSpaces (joinLines (deHyphenate y)))) ∧
    (∀ c, (pyStrip (collapseSpaces (joinLines (deHyphenate y)))).head? = some c →
      isPySpace c = false) ∧
    (∀ c, (pyStrip (collapseSpaces (joinLines (deHyphenate y)))).getLast? = some c →
      isPySpace c = false) := by
  have hnw : '\n' ∉ joinLines (deHyphenate y) := by
    unfold joinLines
    exact newline_not_mem_joinLinesGo (deHyphenate y) []
  have hnv : '\n' ∉ collapseSpaces (joinLines (deHyphenate y)) :=
    not_mem_collapseSpaces '\n' (by decide) _ hnw
  have hshx : softHyphen ∉ deHyphenate y := by
    unfold deHyphenate
    exact not_mem_deHyphGo softHyphen (by decide) y none hy (by intro ws hws; cases hws)
  have hshw : softHyphen ∉ joinLines (deHyphenate y) := by
    unfold joinLines
    exact not_mem_joinLinesGo softHyphen (by decide) (deHyphenate y) [] hshx (by simp)
  have hshv : softHyphen ∉ collapseSpaces (joinLines (deHyphenate y)) :=
    not_mem_collapseSpaces softHyphen (by decide) _ hshw
  refine ⟨?_, ?_, ?_, chain'_pyStrip _ (chain'_collapseSpaces _),
    fun c hc => pyStrip_head_not_space _ c hc,
    fun c hc => pyStrip_getLast_not_space _ c hc⟩
  · intro h
    exact hnv (mem_pyStrip _ _ h)
  · intro h
    exact hshv (mem_pyStrip _ _ h)
  · intro c hc hws
    exact ws_mem_collapseSpaces _ c (mem_pyStrip _ _ hc) hws

theorem normalize_text_invariants (t : List Char) :
    '\n' ∉ normalize_text t ∧
    softHyphen ∉ normalize_text t ∧
    (∀ c ∈ normalize_text t, isPySpace c = true → c = ' ') ∧
    NoTwoSpaces (normalize_text t) ∧
    (∀ c, (normalize_text t).head? = some c → isPySpace c = false) ∧
    (∀ c, (normalize_text t).getLast? = some c → isPySpace c = false) := by
  rw [normalize_text_eq t]
  exact pipeline_invariants _ (by
    intro hmem
    have := (List.mem_filter.mp hmem).2
    simp at this)

/-- C6 amended: the normalizer is idempotent on every input whose
normalized output is itself NFKC-normal (in particular on all inputs
whose normalization never juxtaposes a base character with a combining
mark); without that proviso idempotence fails, see the counterexample. -/
theorem normalize_text_idempotent_of_nfkc_fixed (t : List Char)
    (h : nfkc (normalize_text t) = normalize_text t) :
    normalize_text (normalize_text t) = normalize_text t := by
  obtain ⟨h1, h2, h3, h4, h5, h6⟩ := normalize_text_invariants t
  conv_lhs => rw [normalize_text_eq (normalize_text t)]
  rw [h]
  rw [List.filter_eq_self.mpr (by
    intro a ha
    simp only [decide_eq_true_eq]
    intro heq
    exact h2 (heq ▸ ha))]
  rw [show deHyphenate (normalize_text t) = normalize_text t from by
    unfold deHyphenate
    have hd := deHyphGo_no_newline (normalize_text t) none h1
      (by intro ws hws; cases hws)
    simpa using hd]
  rw [show joinLines (normalize_text t) = normalize_text t from by
    unfold joinLines
    have hj := joinLinesGo_eq_self (normalize_text t) [] (by simp) h1
    simpa using hj]
  rw [collapseSpaces_eq_self (normalize_text t) h3 h4]
  exact pyStrip_eq_self (normalize_text t) h5 h6

/-- C6 witness: an ordinary messy ASCII input normalizes to an
NFKC-fixed string, on which normalization is a no-op. -/
theorem normalize_text_idempotent_witness :
    nfkc (normalize_text "  co-\noperative   text ".toList) =
      normalize_text "  co-\noperative   text ".toList ∧
    normalize_text (normalize_text "  co-\noperative   text ".toList) =
      normalize_text "  co-\noperative   text ".toList :=
  ⟨by decide, normalize_text_idempotent_of_nfkc_fixed _ (by decide)⟩

/-- C6 counterexample: `"a-\n" + U+0301`.  The first pass de-hyphenates,
leaving `a` directly followed by the combining acute — a string that is
no longer NFKC-normal — and the second pass's NFKC composes the pair
into U+00E1, so normalize(normalize(t)) differs from normalize(t).
(CPython agrees: `unicodedata.normalize("NFKC", "á")` is
`"á"`.) -/
theorem normalizer_not_idempotent :
    normalize_text (normalize_text "a-\n\u0301".toList) ≠
      normalize_text "a-\n\u0301".toList ∧
    normalize_text "a-\n\u0301".toList = ['a', combiningAcute] ∧
    normalize_text (normalize_text "a-\n\u0301".toList) = [aWithAcute] :=
  ⟨by decide, by decide, by decide⟩

/-- C7: the normalizer de-hyphenates across line breaks and joins lines
with single spaces. -/
theorem normalize_text_scenarios :
    normalize_text "co-\noperative".toList = "cooperative".toList ∧
    normalize_text "line one\nline two".toList = "line one line two".toList :=
  ⟨by decide, by decide⟩

/-! ## Orchestrator lemmas (C1, C5, C9) -/

theorem rowAt_set_ne (l : List PaperRec) (i k : Nat) (a : PaperRec) (h : i ≠ k) :
    rowAt (l.set i a) k = rowAt l k := by
  unfold rowAt
  rw [List.getD_eq_getElem?_getD, List.getD_eq_getElem?_getD, List.getElem?_set,
    if_neg h]

theorem rowAt_set_self (l : List PaperRec) (i : Nat) (a : PaperRec)
    (h : i < l.length) : rowAt (l.set i a) i = a := by
  unfold rowAt
  rw [List.getD_eq_getElem?_getD, List.getElem?_set, if_pos rfl, if_pos h]
  rfl

theorem insertDesc_perm (db : List PaperRec) (i : Nat) :
    ∀ l : List Nat, (insertDesc db i l).Perm (i :: l)
  | [] => List.Perm.refl _
  | j :: rest => by
      unfold insertDesc
      split
      · exact List.Perm.refl _
      · exact ((insertDesc_perm db i rest).cons j).trans (List.Perm.swap i j rest)

theorem sortByPublishedDesc_perm (db : List PaperRec) :
    ∀ l : List Nat, (sortByPublishedDesc db l).Perm l
  | [] => List.Perm.refl _
  | j :: rest => by
      unfold sortByPublishedDesc
      rw [List.foldr_cons]
      exact (insertDesc_perm db j _).trans
        ((sortByPublishedDesc_perm db rest).cons j)

theorem insertDesc_sorted (db : List PaperRec) (i : Nat) :
    ∀ l : List Nat, l.Sorted (moreRecentFirst db) →
      (insertDesc db i l).Sorted (moreRecentFirst db)
  | [], _ => List.sorted_singleton i
  | j :: rest, hs => by
      unfold insertDesc
      split
      · rename_i hlt
        rw [List.sorted_cons]
        refine ⟨?_, hs⟩
        intro k hk
        rcases List.mem_cons.mp hk with rfl | hk2
        · exact le_of_lt hlt
        · exact ((List.sorted_cons.mp hs).1 k hk2).trans (le_of_lt hlt)
      · rename_i hge
        have hs2 := List.sorted_cons.mp hs
        rw [List.sorted_cons]
        refine ⟨?_, insertDesc_sorted db i rest hs2.2⟩
        intro k hk
        have hk2 := (insertDesc_perm db i rest).mem_iff.mp hk
        rcases List.mem_cons.mp hk2 with rfl | hk3
        · exact le_of_not_lt hge
        · exact hs2.1 k hk3

theorem sortByPublishedDesc_sorted (db : List PaperRec) :
    ∀ l : List Nat, (sortByPublishedDesc db l).Sorted (moreRecentFirst db)
  | [] => List.sorted_nil
  | j :: rest => by
      unfold sortByPublishedDesc
      rw [List.foldr_cons]
      exact insertDesc_sorted db j _ (sortByPublishedDesc_sorted db rest)

theorem selected_rows_sorted (db : List PaperRec) (limit : Nat) :
    (selected_rows db limit).Sorted (moreRecentFirst db) :=
  List.Pairwise.sublist (List.take_sublist _ _) (sortByPublishedDesc_sorted db _)

theorem selected_rows_length_le (db : List PaperRec) (limit : Nat) :
    (selected_rows db limit).length ≤ limit :=
  List.length_take_le _ _

theorem mem_selected_rows (db : List PaperRec) (limit i : Nat)
    (h : i ∈ selected_rows db limit) :
    i < db.length ∧ needs_summary (rowAt db i) = true := by
  unfold selected_rows at h
  have h2 := List.mem_of_mem_take h
  have h3 := (sortByPublishedDesc_perm db _).mem_iff.mp h2
  have h4 := List.mem_filter.mp h3
  exact ⟨List.mem_range.mp h4.1, h4.2⟩

theorem selected_rows_nodup (db : List PaperRec) (limit : Nat) :
    (selected_rows db limit).Nodup := by
  apply List.Nodup.sublist (List.take_sublist _ _)
  exact ((sortByPublishedDesc_perm db _).nodup_iff).mpr
    (List.Nodup.filter _ (List.nodup_range _))

theorem run_foldl_spec (oracle : PaperRec → Except (List Char) SummarizationResult)
    (db : List PaperRec) :
    ∀ (idxs : List Nat) (st : RunState), idxs.Nodup → (∀ i ∈ idxs, i < db.length) →
      st.db.length = db.length → (∀ i ∈ idxs, rowAt st.db i = rowAt db i) →
      (idxs.foldl (step_paper oracle) st).db.length = db.length ∧
      (∀ j, j ∉ idxs →
        rowAt (idxs.foldl (step_paper oracle) st).db j = rowAt st.db j) ∧
      (∀ i ∈ idxs,
        rowAt (idxs.foldl (step_paper oracle) st).db i = paper_outcome oracle db i) ∧
      (idxs.foldl (step_paper oracle) st).pipeline_calls =
        st.pipeline_calls ++ idxs.filter (fun i => !truthy_hash (rowAt db i)) ∧
      (idxs.foldl (step_paper oracle) st).updated =
        st.updated + (idxs.filter (fun i =>
          !truthy_hash (rowAt db i) && (oracle (rowAt db i)).isOk)).length ∧
      (idxs.foldl (step_paper oracle) st).failure_log =
        st.failure_log ++ (idxs.filter (fun i =>
          !truthy_hash (rowAt db i) && !(oracle (rowAt db i)).isOk)).map
          (fun i => (log_ident (rowAt db i), errOf (oracle (rowAt db i)))) := by
  intro idxs
  induction idxs with
  | nil =>
      intro st _ _ hlen _
      refine ⟨hlen, fun j _ => rfl, by simp, by simp, by simp, by simp⟩
  | cons i rest ih =>
      intro st hnd hlt hlen hagree
      have hpi : rowAt st.db i = rowAt db i := hagree i (List.mem_cons_self i rest)
      have hirest : i ∉ rest := (List.nodup_cons.mp hnd).1
      have hndr : rest.Nodup := (List.nodup_cons.mp hnd).2
      have hltr : ∀ k ∈ rest, k < db.length :=
        fun k hk => hlt k (List.mem_cons_of_mem i hk)
      have hidb : i < db.length := hlt i (List.mem_cons_self i rest)
      simp only [List.foldl_cons]
      cases htr : truthy_hash (rowAt db i) with
      | true =>
          have hst1 : step_paper oracle st i = st := by
            unfold step_paper
            rw [hpi, if_pos htr]
          rw [hst1]
          obtain ⟨g1, g2, g3, g4, g5, g6⟩ := ih st hndr hltr hlen
            (fun k hk => hagree k (List.mem_cons_of_mem i hk))
          refine ⟨g1, ?_, ?_, ?_, ?_, ?_⟩
          · intro j hj
            exact g2 j (fun hm => hj (List.mem_cons_of_mem i hm))
          · intro k hk
            rcases List.mem_cons.mp hk with rfl | hk2
            · rw [g2 k hirest, hpi]
              unfold paper_outcome
              rw [if_pos htr]
            · exact g3 k hk2
          · rw [g4, List.filter_cons_of_neg (by simp [htr])]
          · rw [g5, List.filter_cons_of_neg (by simp [htr])]
          · rw [g6, List.filter_cons_of_neg (by simp [htr])]
      | false =>
          cases hor : oracle (rowAt db i) with
          | ok r =>
              have hst1 : step_paper oracle st i =
                  { db := st.db.set i (apply_result (rowAt db i) r)
                    updated := st.updated + 1
                    pipeline_calls := st.pipeline_calls ++ [i]
                    failure_log := st.failure_log } := by
                unfold step_paper
                rw [hpi, if_neg (by rw [htr]; simp), hor]
              rw [hst1]
              have hlen1 : (st.db.set i (apply_result (rowAt db i) r)).length =
                  db.length := by rw [List.length_set]; exact hlen
              have hagree1 : ∀ k ∈ rest,
                  rowAt (st.db.set i (apply_result (rowAt db i) r)) k = rowAt db k := by
                intro k hk
                have hik : i ≠ k := fun he => hirest (he ▸ hk)
                rw [rowAt_set_ne st.db i k _ hik]
                exact hagree k (List.mem_cons_of_mem i hk)
              obtain ⟨g1, g2, g3, g4, g5, g6⟩ := ih
                { db := st.db.set i (apply_result (rowAt db i) r)
                  updated := st.updated + 1
                  pipeline_calls := st.pipeline_calls ++ [i]
                  failure_log := st.failure_log }
                hndr hltr hlen1 hagree1
              refine ⟨g1, ?_, ?_, ?_, ?_, ?_⟩
              · intro j hj
                have hij : i ≠ j := fun he => hj (he ▸ List.mem_cons_self i rest)
                rw [g2 j (fun hm => hj (List.mem_cons_of_mem i hm)),
                  rowAt_set_ne st.db i j _ hij]
              · intro k hk
                rcases List.mem_cons.mp hk with rfl | hk2
                · rw [g2 k hirest,
                    rowAt_set_self st.db k _ (by rw [hlen]; exact hidb)]
                  unfold paper_outcome
                  rw [if_neg (by rw [htr]; simp), hor]
                · exact g3 k hk2
              · rw [g4, List.filter_cons_of_pos (by simp [htr])]
                simp
              · rw [g5, List.filter_cons_of_pos (by simp [htr, hor, Except.isOk, Except.toBool])]
                simp only [List.length_cons]
                omega
              · rw [g6, List.filter_cons_of_neg (by simp [htr, hor, Except.isOk, Except.toBool])]
          | error e =>
              have hst1 : step_paper oracle st i =
                  { st with
                    pipeline_calls := st.pipeline_calls ++ [i]
                    failure_log := st.failure_log ++
                      [(log_ident (rowAt db i), e)] } := by
                unfold step_paper
                rw [hpi, if_neg (by rw [htr]; simp), hor]
              rw [hst1]
              obtain ⟨g1, g2, g3, g4, g5, g6⟩ := ih
                { st with
                  pipeline_calls := st.pipeline_calls ++ [i]
                  failure_log := st.failure_log ++ [(log_ident (rowAt db i), e)] }
                hndr hltr hlen
                (fun k hk => hagree k (List.mem_cons_of_mem i hk))
              refine ⟨g1, ?_, ?_, ?_, ?_, ?_⟩
              · intro j hj
                exact g2 j (fun hm => hj (List.mem_cons_of_mem i hm))
              · intro k hk
                rcases List.mem_cons.mp hk with rfl | hk2
                · rw [g2 k hirest, hpi]
                  unfold paper_outcome
                  rw [if_neg (by rw [htr]; simp), hor]
                · exact g3 k hk2
              · rw [g4, List.filter_cons_of_pos (by simp [htr])]
                simp
              · rw [g5, List.filter_cons_of_neg (by simp [htr, hor, Except.isOk, Except.toBool])]
              · rw [g6, List.filter_cons_of_pos (by simp [htr, hor, Except.isOk, Except.toBool])]
                simp [hor, errOf]

theorem summarize_run_spec (db : List PaperRec) (limit : Nat)
    (oracle : PaperRec → Except (List Char) SummarizationResult) :
    (summarize_missing_papers db limit oracle).db.length = db.length ∧
    (∀ j, j ∉ selected_rows db limit →
      rowAt (summarize_missing_papers db limit oracle).db j = rowAt db j) ∧
    (∀ i ∈ selected_rows db limit,
      rowAt (summarize_missing_papers db limit oracle).db i =
        paper_outcome oracle db i) ∧
    (summarize_missing_papers db limit oracle).pipeline_calls =
      (selected_rows db limit).filter (fun i => !truthy_hash (rowAt db i)) ∧
    (summarize_missing_papers db limit oracle).updated =
      ((selected_rows db limit).filter (fun i =>
        !truthy_hash (rowAt db i) && (oracle (rowAt db i)).isOk)).length ∧
    (summarize_missing_papers db limit oracle).failure_log =
      ((selected_rows db limit).filter (fun i =>
        !truthy_hash (rowAt db i) && !(oracle (rowAt db i)).isOk)).map
        (fun i => (log_ident (rowAt db i), errOf (oracle (rowAt db i)))) := by
  unfold summarize_missing_papers
  obtain ⟨g1, g2, g3, g4, g5, g6⟩ := run_foldl_spec oracle db (selected_rows db limit)
    { db := db, updated := 0, pipeline_calls := [], failure_log := [] }
    (selected_rows_nodup db limit)
    (fun i hi => (mem_selected_rows db limit i hi).1) rfl (fun _ _ => rfl)
  exact ⟨g1, g2, g3, by simpa using g4, by simpa using g5, by simpa using g6⟩

/-- C1 amended: a selected paper whose stored PDF hash is truthy —
non-null AND non-empty (Python `if p.summary_pdf_sha256:`) — triggers no
pipeline invocation (hence no fetch, extraction, normalization, or model
call) and all of its stored fields, including the stored hash, are
unchanged by the run. -/
theorem skip_on_truthy_hash (db : List PaperRec) (limit : Nat)
    (oracle : PaperRec → Except (List Char) SummarizationResult) (i : Nat)
    (hi : i ∈ selected_rows db limit) (h : truthy_hash (rowAt db i) = true) :
    i ∉ (summarize_missing_papers db limit oracle).pipeline_calls ∧
    rowAt (summarize_missing_papers db limit oracle).db i = rowAt db i ∧
    (rowAt (summarize_missing_papers db limit oracle).db i).summary_pdf_sha256 =
      (rowAt db i).summary_pdf_sha256 := by
  obtain ⟨_, _, g3, g4, _, _⟩ := summarize_run_spec db limit oracle
  have hrow := g3 i hi
  unfold paper_outcome at hrow
  rw [if_pos h] at hrow
  refine ⟨?_, hrow, by rw [hrow]⟩
  rw [g4]
  intro hc
  have h2 := (List.mem_filter.mp hc).2
  rw [h] at h2
  simp at h2

/-- C1 witness: a selected paper with stored hash `"abc123"` is skipped
untouched while the batch runs. -/
theorem skip_on_truthy_hash_witness :
    0 ∈ selected_rows [hashedPaper, olderPaper] 2 ∧
    truthy_hash (rowAt [hashedPaper, olderPaper] 0) = true ∧
    (0 ∉ (summarize_missing_papers [hashedPaper, olderPaper] 2 okOracle).pipeline_calls ∧
      rowAt (summarize_missing_papers [hashedPaper, olderPaper] 2 okOracle).db 0 =
        rowAt [hashedPaper, olderPaper] 0 ∧
      (rowAt (summarize_missing_papers
        [hashedPaper, olderPaper] 2 okOracle).db 0).summary_pdf_sha256 =
        (rowAt [hashedPaper, olderPaper] 0).summary_pdf_sha256) :=
  ⟨by decide, by decide,
   skip_on_truthy_hash [hashedPaper, olderPaper] 2 okOracle 0 (by decide) (by decide)⟩

/-- C1 counterexample: a stored PDF hash that is non-null but empty
(`some ""`).  The claim says a non-null hash means no pipeline work and
unchanged fields; the code's truthiness test `if p.summary_pdf_sha256:`
is false for the empty string, so the paper is fetched, summarized and
overwritten. -/
theorem non_null_hash_still_fetched :
    (rowAt [emptyHashPaper] 0).summary_pdf_sha256 ≠ none ∧
    (summarize_missing_papers [emptyHashPaper] 1 okOracle).pipeline_calls = [0] ∧
    rowAt (summarize_missing_papers [emptyHashPaper] 1 okOracle).db 0 ≠
      rowAt [emptyHashPaper] 0 ∧
    (rowAt (summarize_missing_papers
      [emptyHashPaper] 1 okOracle).db 0).summary_pdf_sha256 =
      some "deadbeef".toList :=
  ⟨by decide, by decide, by decide, by decide⟩

/-- C5: one paper's pipeline failure is caught at the per-paper
boundary: the failed paper's row is unchanged (rollback), a log entry
carrying its identifier and the error is recorded, every attemptable
paper of the batch is still attempted, and the returned count equals the
number of papers whose pipeline call succeeded and was committed. -/
theorem fault_isolation (db : List PaperRec) (limit : Nat)
    (oracle : PaperRec → Except (List Char) SummarizationResult) (i : Nat)
    (e : List Char) (hi : i ∈ selected_rows db limit)
    (hatt : truthy_hash (rowAt db i) = false)
    (herr : oracle (rowAt db i) = Except.error e) :
    rowAt (summarize_missing_papers db limit oracle).db i = rowAt db i ∧
    (log_ident (rowAt db i), e) ∈
      (summarize_missing_papers db limit oracle).failure_log ∧
    (∀ j ∈ selected_rows db limit, truthy_hash (rowAt db j) = false →
      j ∈ (summarize_missing_papers db limit oracle).pipeline_calls) ∧
    (summarize_missing_papers db limit oracle).updated =
      ((selected_rows db limit).filter (fun j =>
        !truthy_hash (rowAt db j) && (oracle (rowAt db j)).isOk)).length := by
  obtain ⟨_, _, g3, g4, g5, g6⟩ := summarize_run_spec db limit oracle
  refine ⟨?_, ?_, ?_, g5⟩
  · have hrow := g3 i hi
    unfold paper_outcome at hrow
    rw [if_neg (by rw [hatt]; simp), herr] at hrow
    exact hrow
  · rw [g6]
    apply List.mem_map.mpr
    refine ⟨i, ?_, ?_⟩
    · exact List.mem_filter.mpr
        ⟨hi, by rw [hatt, herr]; simp [Except.isOk, Except.toBool]⟩
    · rw [herr]
      rfl
  · intro j hj hjf
    rw [g4]
    exact List.mem_filter.mpr ⟨hj, by rw [hjf]; simp⟩

/-- C5 witness: in a two-paper batch whose first paper's fetch fails,
the first row is unchanged and logged, the second is still attempted
(and committed), and the returned count is 1. -/
theorem fault_isolation_witness :
    0 ∈ selected_rows [basePaper, olderPaper] 2 ∧
    truthy_hash (rowAt [basePaper, olderPaper] 0) = false ∧
    (rowAt (summarize_missing_papers [basePaper, olderPaper] 2 failFirstOracle).db 0 =
        rowAt [basePaper, olderPaper] 0 ∧
      (log_ident (rowAt [basePaper, olderPaper] 0), "fetch timed out".toList) ∈
        (summarize_missing_papers [basePaper, olderPaper] 2 failFirstOracle).failure_log ∧
      (∀ j ∈ selected_rows [basePaper, olderPaper] 2,
        truthy_hash (rowAt [basePaper, olderPaper] j) = false →
        j ∈ (summarize_missing_papers
          [basePaper, olderPaper] 2 failFirstOracle).pipeline_calls) ∧
      (summarize_missing_papers [basePaper, olderPaper] 2 failFirstOracle).updated =
        ((selected_rows [basePaper, olderPaper] 2).filter (fun j =>
          !truthy_hash (rowAt [basePaper, olderPaper] j) &&
            (failFirstOracle (rowAt [basePaper, olderPaper] j)).isOk)).length) ∧
    (summarize_missing_papers [basePaper, olderPaper] 2 failFirstOracle).updated = 1 ∧
    (summarize_missing_papers [basePaper, olderPaper] 2 failFirstOracle).pipeline_calls =
      [0, 1] :=
  ⟨by decide, by decide,
   fault_isolation [basePaper, olderPaper] 2 failFirstOracle 0
     "fetch timed out".toList (by decide) (by decide) (by rfl),
   by decide, by decide⟩

/-- C9 amended: the batch selects at most `limit` rows needing a summary
(null summary or null hash), most recently published first; a selected
row with a truthy (non-null, non-empty) stored hash occupies a slot but
is never attempted or updated, so the number of pipeline calls is at
most the number of selected rows (and can be below `limit` while
never-summarized papers remain beyond the selection). -/
theorem selection_and_slots (db : List PaperRec) (limit : Nat)
    (oracle : PaperRec → Except (List Char) SummarizationResult) :
    (selected_rows db limit).length ≤ limit ∧
    (∀ i ∈ selected_rows db limit,
      i < db.length ∧ needs_summary (rowAt db i) = true) ∧
    (selected_rows db limit).Sorted (moreRecentFirst db) ∧
    (∀ i ∈ selected_rows db limit, truthy_hash (rowAt db i) = true →
      i ∉ (summarize_missing_papers db limit oracle).pipeline_calls ∧
      rowAt (summarize_missing_papers db limit oracle).db i = rowAt db i) ∧
    (summarize_missing_papers db limit oracle).pipeline_calls.length ≤
      (selected_rows db limit).length := by
  obtain ⟨_, _, g3, g4, _, _⟩ := summarize_run_spec db limit oracle
  refine ⟨selected_rows_length_le db limit,
    fun i hi => mem_selected_rows db limit i hi,
    selected_rows_sorted db limit, ?_, ?_⟩
  · intro i hi htr
    constructor
    · rw [g4]
      intro hc
      have h2 := (List.mem_filter.mp hc).2
      rw [htr] at h2
      simp at h2
    · have hrow := g3 i hi
      unfold paper_outcome at hrow
      rw [if_pos htr] at hrow
      exact hrow
  · rw [g4]
    exact List.length_filter_le _ _

/-- C9 witness: with limit 1, the newest paper (hash stored, summary
null) occupies the only slot and is not attempted — zero pipeline calls,
below the limit — while an older never-summarized paper sits beyond the
selection. -/
theorem selection_and_slots_witness :
    (0 ∈ selected_rows [hashedPaper, olderPaper] 1 ∧
      truthy_hash (rowAt [hashedPaper, olderPaper] 0) = true ∧
      (0 ∉ (summarize_missing_papers [hashedPaper, olderPaper] 1 okOracle).pipeline_calls ∧
        rowAt (summarize_missing_papers [hashedPaper, olderPaper] 1 okOracle).db 0 =
          rowAt [hashedPaper, olderPaper] 0)) ∧
    (summarize_missing_papers [hashedPaper, olderPaper] 1 okOracle).pipeline_calls = [] ∧
    needs_summary (rowAt [hashedPaper, olderPaper] 1) = true ∧
    1 ∉ selected_rows [hashedPaper, olderPaper] 1 :=
  ⟨⟨by decide, by decide,
    (selection_and_slots [hashedPaper, olderPaper] 1 okOracle).2.2.2.1 0
      (by decide) (by decide)⟩,
   by decide, by decide, by decide⟩

/-- C9 counterexample: a selected paper with the non-null empty-string
hash `some ""` is attempted and updated, contrary to the claim that a
selected paper with a non-null stored hash is never attempted or
updated. -/
theorem selected_non_null_hash_attempted :
    0 ∈ selected_rows [emptyHashPaper'] 1 ∧
    (rowAt [emptyHashPaper'] 0).summary_pdf_sha256 ≠ none ∧
    0 ∈ (summarize_missing_papers [emptyHashPaper'] 1 okOracle).pipeline_calls ∧
    rowAt (summarize_missing_papers [emptyHashPaper'] 1 okOracle).db 0 ≠
      rowAt [emptyHashPaper'] 0 :=
  ⟨by decide, by decide, by decide, by decide⟩
